import Mathlib

/-!
Verification development for pycrystem/utils/expt_utils.py.

The module is a collection of stateless numeric transforms on 2D
electron-diffraction images.  We give a shallow embedding of the functions
the claims are about: images become a structure holding the two dimensions
and a value function, numpy float arithmetic becomes exact arithmetic over
the reals (or over the rationals where everything is executable), and
in-place mutation becomes explicit state passing (the embedded function
returns the final state of the mutated array, which is also the value the
Python function returns).  External library collaborators (scipy
interpolation and filters, the circular-mask provider) are modelled as
explicit function parameters or, where the claims need their behaviour, as
definitions written from the words of the specification.
-/

/-- A 2D image: the two dimensions and a value function, mirroring a numpy
2D array of shape (ny, nx) read as val row col. -/
structure Image (α : Type) where
  ny : ℕ
  nx : ℕ
  val : ℕ → ℕ → α

/-- Row-major list of all (row, col) index pairs of an ny by nx array.
This is the iteration order of numpy ravel and of np.where. -/
def pixelList (ny nx : ℕ) : List (ℕ × ℕ) :=
  (List.range ny).flatMap (fun i => (List.range nx).map (fun j => (i, j)))

/-- numpy flipud: reverses the rows of the array. -/
def flipud {α : Type} (z : Image α) : Image α :=
  ⟨z.ny, z.nx, fun i j => z.val (z.ny - 1 - i) j⟩

/-- numpy arctan2 with the argument order of the source, arctan2(x1, x2):
the angle in (-pi, pi] of the point whose horizontal coordinate is x2 and
whose vertical coordinate is x1 (so the angle is measured from the x2 axis). -/
noncomputable def arctan2 (x1 x2 : ℝ) : ℝ :=
  if 0 < x2 then Real.arctan (x1 / x2)
  else if x2 < 0 then
    (if 0 ≤ x1 then Real.arctan (x1 / x2) + Real.pi
     else Real.arctan (x1 / x2) - Real.pi)
  else if 0 < x1 then Real.pi / 2
  else if x1 < 0 then -(Real.pi / 2)
  else 0

/-- Source _cart2polar (lines 67-84): r = sqrt(x^2 + y^2) and
theta = arctan2(x, y), theta referenced to the vertical axis. -/
noncomputable def _cart2polar (x y : ℝ) : ℝ × ℝ :=
  (Real.sqrt (x ^ 2 + y ^ 2), arctan2 x y)

/-- Source _polar2cart (lines 86-102): y = r cos theta, x = r sin theta,
returned in the order (x, y). -/
noncomputable def _polar2cart (r theta : ℝ) : ℝ × ℝ :=
  (r * Real.sin theta, r * Real.cos theta)

lemma sqrt_one_add_div_sq (x y : ℝ) (hy : y ≠ 0) :
    Real.sqrt (1 + (x / y) ^ 2) = Real.sqrt (x ^ 2 + y ^ 2) / |y| := by
  have h1 : 1 + (x / y) ^ 2 = (x ^ 2 + y ^ 2) / y ^ 2 := by
    field_simp
    ring
  rw [h1, Real.sqrt_div (by positivity), Real.sqrt_sq_eq_abs]

lemma sqrt_sq_add_sq_pos (x y : ℝ) (h : ¬(x = 0 ∧ y = 0)) :
    0 < Real.sqrt (x ^ 2 + y ^ 2) := by
  apply Real.sqrt_pos.mpr
  rcases eq_or_ne x 0 with hx | hx
  · rcases eq_or_ne y 0 with hy | hy
    · exact absurd ⟨hx, hy⟩ h
    · have h2 : 0 < y ^ 2 := by positivity
      nlinarith [sq_nonneg x]
  · have h2 : 0 < x ^ 2 := by positivity
    nlinarith [sq_nonneg y]

/-- C4: for every finite (x, y) other than the origin, _cart2polar
(r = Euclidean norm, theta = arctan2(x, y) from the vertical axis) followed
by _polar2cart (x = r sin theta, y = r cos theta) recovers (x, y); in the
exact-arithmetic model the roundtrip is an identity, which in particular
holds within any floating-point tolerance. -/
theorem cart2polar_polar2cart_roundtrip (x y : ℝ)
    (h : (x, y) ≠ ((0 : ℝ), (0 : ℝ))) :
    _polar2cart (_cart2polar x y).1 (_cart2polar x y).2 = (x, y) := by
  have hne : ¬(x = 0 ∧ y = 0) := by
    intro hc
    exact h (by rw [hc.1, hc.2])
  have hr : 0 < Real.sqrt (x ^ 2 + y ^ 2) := sqrt_sq_add_sq_pos x y hne
  have hr0 : Real.sqrt (x ^ 2 + y ^ 2) ≠ 0 := ne_of_gt hr
  unfold _polar2cart _cart2polar arctan2
  rcases lt_trichotomy y 0 with hy | hy | hy
  · have hyne : y ≠ 0 := ne_of_lt hy
    have hnlt : ¬ (0 < y) := not_lt.mpr (le_of_lt hy)
    simp only [hnlt, if_false, hy, if_true]
    rcases le_or_lt 0 x with hx | hx
    · simp only [hx, if_true]
      rw [Real.sin_add_pi, Real.cos_add_pi, Real.sin_arctan, Real.cos_arctan,
        sqrt_one_add_div_sq x y hyne, abs_of_neg hy]
      simp only [Prod.mk.injEq]
      constructor
      · field_simp
        ring
      · field_simp
    · have hnx : ¬ (0 ≤ x) := not_le.mpr hx
      simp only [hnx, if_false]
      rw [Real.sin_sub_pi, Real.cos_sub_pi, Real.sin_arctan, Real.cos_arctan,
        sqrt_one_add_div_sq x y hyne, abs_of_neg hy]
      simp only [Prod.mk.injEq]
      constructor
      · field_simp
        ring
      · field_simp
  · subst hy
    have hx : x ≠ 0 := fun hx0 => hne ⟨hx0, rfl⟩
    have hsq : Real.sqrt (x ^ 2 + 0 ^ 2) = |x| := by
      rw [show x ^ 2 + (0 : ℝ) ^ 2 = x ^ 2 by ring, Real.sqrt_sq_eq_abs]
    simp only [lt_irrefl, if_false]
    rcases lt_or_gt_of_ne hx with hxneg | hxpos
    · have hnx : ¬ (0 < x) := not_lt.mpr (le_of_lt hxneg)
      simp only [hnx, if_false, hxneg, if_true]
      rw [hsq, abs_of_neg hxneg]
      simp [Real.sin_pi_div_two, Real.cos_pi_div_two]
    · simp only [hxpos, if_true]
      rw [hsq, abs_of_pos hxpos]
      simp [Real.sin_pi_div_two, Real.cos_pi_div_two]
  · have hyne : y ≠ 0 := ne_of_gt hy
    simp only [hy, if_true]
    rw [Real.sin_arctan, Real.cos_arctan, sqrt_one_add_div_sq x y hyne,
      abs_of_pos hy]
    simp only [Prod.mk.injEq]
    constructor
    · field_simp
    · field_simp

/-- Witness for C4 at the concrete point (1, 2). -/
theorem cart2polar_polar2cart_roundtrip_witness :
    ((1 : ℝ), (2 : ℝ)) ≠ ((0 : ℝ), (0 : ℝ)) ∧
    _polar2cart (_cart2polar 1 2).1 (_cart2polar 1 2).2 = ((1 : ℝ), (2 : ℝ)) :=
  ⟨fun hc => one_ne_zero (congrArg Prod.fst hc),
    cart2polar_polar2cart_roundtrip 1 2
      (fun hc => one_ne_zero (congrArg Prod.fst hc))⟩

/-- Radius bin of pixel (i, j) about the center (c0, c1), from the naive
path of radial_average (lines 122-124): the source computes
r = sqrt((x - center[1])^2 + (y - center[0])^2) with x = j and y = i and
truncates with astype(int); on exact arithmetic the truncated square root
of a natural number s is Nat.sqrt s. -/
def rbin (c0 c1 : ℕ) (i j : ℕ) : ℕ :=
  Nat.sqrt ((((j : ℤ) - (c1 : ℤ)) ^ 2 + ((i : ℤ) - (c0 : ℤ)) ^ 2).toNat)

/-- Largest radius bin occurring in an ny by nx array; np.bincount returns
an array of length one more than this (for a nonempty input array). -/
def maxBin (ny nx c0 c1 : ℕ) : ℕ :=
  ((pixelList ny nx).map (fun p => rbin c0 c1 p.1 p.2)).foldr max 0

/-- Number of pixels falling in radius bin k: the entry nr[k] of
np.bincount(r.ravel()) at line 127. -/
def cntBin (ny nx c0 c1 k : ℕ) : ℕ :=
  ((pixelList ny nx).filter (fun p => rbin c0 c1 p.1 p.2 == k)).length

/-- Sum of the intensities of the pixels falling in radius bin k: the entry
tbin[k] of np.bincount(r.ravel(), z.ravel()) at line 126. -/
def tbinSum (z : Image ℚ) (c0 c1 k : ℕ) : ℚ :=
  (((pixelList z.ny z.nx).filter (fun p => rbin c0 c1 p.1 p.2 == k)).map
    (fun p => z.val p.1 p.2)).sum

/-- Source radial_average (lines 104-130), naive binning path (the compiled
fast path is specified to be numerically identical): bin pixel intensities
by truncated integer radius, accumulate per-bin sum and count, divide.
A zero-count bin gives 0/0, which is NaN in numpy float division; the model
returns none for it. -/
def radial_average (z : Image ℚ) (center : ℕ × ℕ) : List (Option ℚ) :=
  (List.range (maxBin z.ny z.nx center.1 center.2 + 1)).map (fun k =>
    if cntBin z.ny z.nx center.1 center.2 k = 0 then none
    else some (tbinSum z center.1 center.2 k /
      (cntBin z.ny z.nx center.1 center.2 k : ℚ)))

lemma le_foldr_max (l : List ℕ) (a : ℕ) (h : a ∈ l) : a ≤ l.foldr max 0 := by
  induction l with
  | nil => cases h
  | cons b t ih =>
    rcases List.mem_cons.mp h with hb | ht
    · subst hb
      exact le_max_left _ _
    · exact le_trans (ih ht) (le_max_right _ _)

lemma getD_range_map {α : Type} (n : ℕ) (f : ℕ → α) (k : ℕ) (d : α)
    (hk : k < n) : ((List.range n).map f).getD k d = f k := by
  rw [List.getD_eq_getElem?_getD, List.getElem?_map, List.getElem?_range hk]
  rfl

lemma sum_map_const_q (l : List (ℕ × ℕ)) (v : ℚ) :
    (l.map (fun _ => v)).sum = l.length * v := by
  induction l with
  | nil => simp
  | cons a t ih =>
    simp [ih]
    ring

/-- C5: on a constant-valued image of value v with the center anywhere
inside the image, radial_average (naive binning: per-bin sum divided by
per-bin count over truncated integer distances) returns exactly v at every
radial bin containing at least one pixel. -/
theorem radial_average_const (ny nx c0 c1 : ℕ) (v : ℚ) (h0 : c0 < ny)
    (h1 : c1 < nx) (k : ℕ) (hk : 0 < cntBin ny nx c0 c1 k) :
    (radial_average (Image.mk ny nx (fun _ _ => v)) (c0, c1)).getD k none =
      some v := by
  have hmem : k ≤ maxBin ny nx c0 c1 := by
    have hne : ((pixelList ny nx).filter
        (fun p => rbin c0 c1 p.1 p.2 == k)) ≠ [] := by
      intro hnil
      rw [cntBin, hnil] at hk
      exact absurd hk (by simp)
    obtain ⟨p, hp⟩ := List.exists_mem_of_ne_nil _ hne
    obtain ⟨hpl, hpk⟩ := List.mem_filter.mp hp
    have hrk : rbin c0 c1 p.1 p.2 = k := by
      simpa using hpk
    apply le_foldr_max
    rw [← hrk]
    exact List.mem_map.mpr ⟨p, hpl, rfl⟩
  rw [radial_average]
  rw [getD_range_map _ _ _ _ (Nat.lt_succ_of_le hmem)]
  have hc : cntBin ny nx c0 c1 k ≠ 0 := Nat.pos_iff_ne_zero.mp hk
  simp only [hc, if_false]
  have htb : tbinSum (Image.mk ny nx (fun _ _ => v)) c0 c1 k =
      (cntBin ny nx c0 c1 k : ℚ) * v := by
    rw [tbinSum, cntBin]
    exact sum_map_const_q _ v
  rw [htb]
  have hcq : (cntBin ny nx c0 c1 k : ℚ) ≠ 0 := by exact_mod_cast hc
  congr 1
  field_simp

/-- Witness for C5: a 1 by 1 image of constant value 7 with center (0, 0);
bin 0 holds one pixel and the radial average there is 7. -/
theorem radial_average_const_witness :
    0 < 1 ∧ 0 < cntBin 1 1 0 0 0 ∧
    (radial_average (Image.mk 1 1 (fun _ _ => (7 : ℚ))) (0, 0)).getD 0 none =
      some 7 :=
  ⟨by decide, by decide,
    radial_average_const 1 1 0 0 7 (by decide) (by decide) 0 (by decide)⟩

/-- Origin defaulting shared by _index_coords (line 57) and reproject_polar
(lines 168-169): when no origin is given, the integer-divided geometric
center (nx // 2, ny // 2) is used. -/
noncomputable def originOf (z : Image ℝ) (origin : Option (ℝ × ℝ)) : ℝ × ℝ :=
  origin.getD (((z.nx / 2 : ℕ) : ℝ), ((z.ny / 2 : ℕ) : ℝ))

/-- Source _index_coords (lines 39-65): the x and y offsets of every pixel
from the origin, x varying along columns and y along rows. -/
noncomputable def _index_coords (z : Image ℝ) (origin : Option (ℝ × ℝ)) :
    (ℕ → ℕ → ℝ) × (ℕ → ℕ → ℝ) :=
  (fun _ j => (j : ℝ) - (originOf z origin).1,
   fun i _ => (i : ℝ) - (originOf z origin).2)

/-- Per-pixel radius r[i, j] computed at line 173 of reproject_polar. -/
noncomputable def rOf (z : Image ℝ) (origin : Option (ℝ × ℝ)) (i j : ℕ) : ℝ :=
  (_cart2polar ((_index_coords z origin).1 i j)
    ((_index_coords z origin).2 i j)).1

/-- Per-pixel angle theta[i, j] computed at line 173 of reproject_polar. -/
noncomputable def thetaOf (z : Image ℝ) (origin : Option (ℝ × ℝ))
    (i j : ℕ) : ℝ :=
  (_cart2polar ((_index_coords z origin).1 i j)
    ((_index_coords z origin).2 i j)).2

/-- numpy max of an array as a fold over its raveled entries; np.max raises
on an empty array, for which the model returns the default 0. -/
noncomputable def listMaxR (l : List ℝ) : ℝ := l.foldl max (l.headD 0)

/-- numpy min of an array as a fold over its raveled entries; np.min raises
on an empty array, for which the model returns the default 0. -/
noncomputable def listMinR (l : List ℝ) : ℝ := l.foldl min (l.headD 0)

/-- r.max() at line 175. -/
noncomputable def rmaxOf (z : Image ℝ) (origin : Option (ℝ × ℝ)) : ℝ :=
  listMaxR ((pixelList z.ny z.nx).map (fun p => rOf z origin p.1 p.2))

/-- r.min() at line 175. -/
noncomputable def rminOf (z : Image ℝ) (origin : Option (ℝ × ℝ)) : ℝ :=
  listMinR ((pixelList z.ny z.nx).map (fun p => rOf z origin p.1 p.2))

/-- theta.max() at line 181. -/
noncomputable def tmaxOf (z : Image ℝ) (origin : Option (ℝ × ℝ)) : ℝ :=
  listMaxR ((pixelList z.ny z.nx).map (fun p => thetaOf z origin p.1 p.2))

/-- theta.min() at line 181. -/
noncomputable def tminOf (z : Image ℝ) (origin : Option (ℝ × ℝ)) : ℝ :=
  listMinR ((pixelList z.ny z.nx).map (fun p => thetaOf z origin p.1 p.2))

/-- Radial bin count nr = np.int(np.ceil((r.max() - r.min()) / dr)) from
line 175; np.int truncates, which on the integer output of np.ceil is the
identity, and the model clamps a negative count to 0 (a negative count only
arises for dr < 0, where numpy linspace raises). -/
noncomputable def nrOf (z : Image ℝ) (origin : Option (ℝ × ℝ)) (dr : ℝ) :
    ℕ :=
  (Int.ceil ((rmaxOf z origin - rminOf z origin) / dr)).toNat

/-- Angular bin count from lines 177-181: max(nx, ny) when dt is unset,
else np.int(np.ceil((theta.max() - theta.min()) / dt)). -/
noncomputable def ntOf (z : Image ℝ) (origin : Option (ℝ × ℝ))
    (dt : Option ℝ) : ℕ :=
  match dt with
  | none => max z.nx z.ny
  | some t => (Int.ceil ((tmaxOf z origin - tminOf z origin) / t)).toNat

/-- The k-th radius sample of np.linspace(r.min(), r.max(), nr,
endpoint=False) from line 184. -/
noncomputable def rIOf (z : Image ℝ) (origin : Option (ℝ × ℝ)) (dr : ℝ)
    (k : ℕ) : ℝ :=
  rminOf z origin +
    (k : ℝ) * ((rmaxOf z origin - rminOf z origin) / (nrOf z origin dr : ℝ))

/-- The t-th angle sample of np.linspace(theta.min(), theta.max(), nt,
endpoint=False) from line 185. -/
noncomputable def thetaIOf (z : Image ℝ) (origin : Option (ℝ × ℝ))
    (dr : ℝ) (dt : Option ℝ) (t : ℕ) : ℝ :=
  tminOf z origin +
    (t : ℝ) * ((tmaxOf z origin - tminOf z origin) / (ntOf z origin dt : ℝ))

/-- The resampled value at grid point (k, t), from lines 189-196: the grid
point (r_i[k], theta_i[t]) is sent back to pixel coordinates with
_polar2cart, shifted by the origin, and the interpolation provider
(ndi.map_coordinates, an external collaborator passed as interp) is applied
at the fractional (row, col) coordinate.  Line 196 passes z itself to
map_coordinates, not the array data = np.flipud(z) bound at line 165, so
the sampled array here is z. -/
noncomputable def sampleOf (z : Image ℝ)
    (interp : (ℕ → ℕ → ℝ) → ℝ → ℝ → ℝ) (origin : Option (ℝ × ℝ))
    (dr : ℝ) (dt : Option ℝ) (k t : ℕ) : ℝ :=
  interp z.val
    ((_polar2cart (rIOf z origin dr k) (thetaIOf z origin dr dt t)).2 +
      (originOf z origin).2)
    ((_polar2cart (rIOf z origin dr k) (thetaIOf z origin dr dt t)).1 +
      (originOf z origin).1)

/-- The flat resampled array zi of line 196, in the row-major order of the
flattened meshgrid: the grid has nr rows (radius) and nt columns (angle). -/
noncomputable def ziOf (z : Image ℝ) (interp : (ℕ → ℕ → ℝ) → ℝ → ℝ → ℝ)
    (origin : Option (ℝ × ℝ)) (dr : ℝ) (dt : Option ℝ) : List ℝ :=
  (List.range (nrOf z origin dr)).flatMap (fun k =>
    (List.range (ntOf z origin dt)).map (fun t =>
      sampleOf z interp origin dr dt k t))

/-- Source reproject_polar (lines 132-202).  Line 165 binds
data = np.flipud(z) (the adjacent comment says the bottom-left convention
requires the flip), but afterwards only the shape of data is read, which
equals the shape of z, and line 196 resamples z itself.  The reshape of
line 197 is row slicing: row k of the output is zi[k*nt : (k+1)*nt].  With
jacobian=True (lines 199-200) each row k is multiplied by r_i[k]. -/
noncomputable def reproject_polar (z : Image ℝ)
    (interp : (ℕ → ℕ → ℝ) → ℝ → ℝ → ℝ) (origin : Option (ℝ × ℝ))
    (jacobian : Bool) (dr : ℝ) (dt : Option ℝ) : List (List ℝ) :=
  let nr := nrOf z origin dr
  let nt := ntOf z origin dt
  let zi := ziOf z interp origin dr dt
  if jacobian then
    (List.range nr).map (fun k =>
      ((zi.drop (k * nt)).take nt).map (fun v => v * rIOf z origin dr k))
  else
    (List.range nr).map (fun k => (zi.drop (k * nt)).take nt)

lemma reproject_polar_false_eq (z : Image ℝ)
    (interp : (ℕ → ℕ → ℝ) → ℝ → ℝ → ℝ) (origin : Option (ℝ × ℝ))
    (dr : ℝ) (dt : Option ℝ) :
    reproject_polar z interp origin false dr dt =
      (List.range (nrOf z origin dr)).map (fun k =>
        ((ziOf z interp origin dr dt).drop (k * ntOf z origin dt)).take
          (ntOf z origin dt)) := by
  simp [reproject_polar]

lemma reproject_polar_true_eq (z : Image ℝ)
    (interp : (ℕ → ℕ → ℝ) → ℝ → ℝ → ℝ) (origin : Option (ℝ × ℝ))
    (dr : ℝ) (dt : Option ℝ) :
    reproject_polar z interp origin true dr dt =
      (List.range (nrOf z origin dr)).map (fun k =>
        (((ziOf z interp origin dr dt).drop (k * ntOf z origin dt)).take
          (ntOf z origin dt)).map (fun v => v * rIOf z origin dr k)) := by
  simp [reproject_polar]

lemma length_range_flatMap_map {α : Type} (n m : ℕ) (f : ℕ → ℕ → α) :
    ((List.range n).flatMap (fun k => (List.range m).map (f k))).length =
      n * m := by
  induction n with
  | zero => simp
  | succ n ih =>
    rw [List.range_succ, List.flatMap_append]
    simp only [List.length_append, ih]
    simp [Nat.succ_mul]

lemma ziOf_length (z : Image ℝ) (interp : (ℕ → ℕ → ℝ) → ℝ → ℝ → ℝ)
    (origin : Option (ℝ × ℝ)) (dr : ℝ) (dt : Option ℝ) :
    (ziOf z interp origin dr dt).length =
      nrOf z origin dr * ntOf z origin dt :=
  length_range_flatMap_map _ _ _

lemma chunk_row_length {α : Type} (zi : List α) (nr nt k : ℕ)
    (hlen : zi.length = nr * nt) (hk : k < nr) :
    ((zi.drop (k * nt)).take nt).length = nt := by
  rw [List.length_take, List.length_drop, hlen]
  apply min_eq_left
  have h1 : (k + 1) * nt ≤ nr * nt := Nat.mul_le_mul_right nt hk
  rw [Nat.succ_mul] at h1
  have h2 : nt + k * nt ≤ nr * nt := by rw [Nat.add_comm]; exact h1
  exact Nat.le_sub_of_add_le h2

/-- C3: for every input image and spacings dr (and optional dt) in the
domain where numpy does not raise (positive spacings, nonempty image), the
output of reproject_polar has exactly nrOf rows, where nrOf is the ceiling
of (r.max() - r.min()) / dr over the per-pixel radii, and every row has
exactly ntOf entries, where ntOf is max(width, height) when dt is unset and
the ceiling of (theta.max() - theta.min()) / dt otherwise; this holds for
both jacobian settings. -/
theorem reproject_polar_shape (z : Image ℝ)
    (interp : (ℕ → ℕ → ℝ) → ℝ → ℝ → ℝ) (origin : Option (ℝ × ℝ))
    (jacobian : Bool) (dr : ℝ) (dt : Option ℝ) (hdr : 0 < dr)
    (hdt : ∀ t, dt = some t → 0 < t) (hny : 0 < z.ny) (hnx : 0 < z.nx) :
    (reproject_polar z interp origin jacobian dr dt).length =
      nrOf z origin dr ∧
    ∀ row ∈ reproject_polar z interp origin jacobian dr dt,
      row.length = ntOf z origin dt := by
  have hzi := ziOf_length z interp origin dr dt
  cases jacobian
  · rw [reproject_polar_false_eq]
    constructor
    · simp
    · intro row hrow
      obtain ⟨k, hk, hrow⟩ := List.mem_map.mp hrow
      rw [← hrow]
      exact chunk_row_length _ _ _ _ hzi (List.mem_range.mp hk)
  · rw [reproject_polar_true_eq]
    constructor
    · simp
    · intro row hrow
      obtain ⟨k, hk, hrow⟩ := List.mem_map.mp hrow
      rw [← hrow, List.length_map]
      exact chunk_row_length _ _ _ _ hzi (List.mem_range.mp hk)

/-- Witness for C3: a 1 by 1 constant image, the constant sampler, default
origin, dr = 1 and dt unset. -/
theorem reproject_polar_shape_witness :
    (0 : ℝ) < 1 ∧ (∀ t : ℝ, (none : Option ℝ) = some t → 0 < t) ∧
    ((0 : ℕ) < 1 ∧ (0 : ℕ) < 1) ∧
    ((reproject_polar (Image.mk 1 1 (fun _ _ => (0 : ℝ)))
        (fun f _ _ => f 0 0) none false 1 none).length =
      nrOf (Image.mk 1 1 (fun _ _ => (0 : ℝ))) none 1 ∧
    ∀ row ∈ reproject_polar (Image.mk 1 1 (fun _ _ => (0 : ℝ)))
        (fun f _ _ => f 0 0) none false 1 none,
      row.length = ntOf (Image.mk 1 1 (fun _ _ => (0 : ℝ))) none none) :=
  ⟨one_pos, fun t h => Option.noConfusion h, ⟨one_pos, one_pos⟩,
    reproject_polar_shape (Image.mk 1 1 (fun _ _ => (0 : ℝ)))
      (fun f _ _ => f 0 0) none false 1 none one_pos
      (fun t h => Option.noConfusion h) one_pos one_pos⟩

lemma getD_range_map_ge {α : Type} (n : ℕ) (f : ℕ → α) (k : ℕ) (d : α)
    (hk : n ≤ k) : ((List.range n).map f).getD k d = d := by
  apply List.getD_eq_default
  simpa using hk

/-- C6: for every input, row k of the jacobian=True output of
reproject_polar equals row k of the jacobian=False output on the same input
multiplied elementwise by the k-th radius sample r_i[k] of the regular
radial grid (rows beyond the output are the empty list on both sides). -/
theorem reproject_polar_jacobian_rows (z : Image ℝ)
    (interp : (ℕ → ℕ → ℝ) → ℝ → ℝ → ℝ) (origin : Option (ℝ × ℝ))
    (dr : ℝ) (dt : Option ℝ) (k : ℕ) :
    (reproject_polar z interp origin true dr dt).getD k [] =
      ((reproject_polar z interp origin false dr dt).getD k []).map
        (fun v => v * rIOf z origin dr k) := by
  rw [reproject_polar_true_eq, reproject_polar_false_eq]
  rcases lt_or_le k (nrOf z origin dr) with hk | hk
  · rw [getD_range_map _ _ _ _ hk, getD_range_map _ _ _ _ hk]
  · rw [getD_range_map_ge _ _ _ _ hk, getD_range_map_ge _ _ _ _ hk]
    simp

/-- A concrete 2 by 2 test image with rows [1, 2] and [3, 4]; it is not
invariant under np.flipud. -/
noncomputable def z2x2 : Image ℝ :=
  ⟨2, 2, fun i j =>
    if i = 0 then (if j = 0 then 1 else 2) else (if j = 0 then 3 else 4)⟩

/-- A concrete interpolation provider that reads entry (0, 0) of the
sampled array whatever the requested coordinates are; any interpolation
scheme agrees with the sampled array at integer in-bounds coordinates, and
this one makes the dependence of the output on the sampled array direct. -/
def constInterp : (ℕ → ℕ → ℝ) → ℝ → ℝ → ℝ := fun f _ _ => f 0 0

lemma nrOf_flipud (z : Image ℝ) (origin : Option (ℝ × ℝ)) (dr : ℝ) :
    nrOf (flipud z) origin dr = nrOf z origin dr := rfl

lemma ntOf_flipud (z : Image ℝ) (origin : Option (ℝ × ℝ))
    (dt : Option ℝ) : ntOf (flipud z) origin dt = ntOf z origin dt := by
  cases dt <;> rfl

lemma sqrt_two_bounds : 1 < Real.sqrt 2 ∧ Real.sqrt 2 ≤ 2 := by
  constructor
  · nlinarith [Real.sq_sqrt (show (0 : ℝ) ≤ 2 by norm_num),
      Real.sqrt_nonneg 2]
  · nlinarith [Real.sq_sqrt (show (0 : ℝ) ≤ 2 by norm_num),
      Real.sqrt_nonneg 2]

lemma rOf_z2x2_vals :
    ((pixelList z2x2.ny z2x2.nx).map (fun p => rOf z2x2 none p.1 p.2)) =
      [Real.sqrt 2, 1, 1, 0] := by
  have hp : pixelList z2x2.ny z2x2.nx = [(0, 0), (0, 1), (1, 0), (1, 1)] := rfl
  rw [hp]
  simp only [List.map_cons, List.map_nil]
  have h00 : rOf z2x2 none 0 0 = Real.sqrt 2 := by
    simp only [rOf, _cart2polar, _index_coords, originOf, z2x2]
    norm_num
  have h01 : rOf z2x2 none 0 1 = 1 := by
    simp only [rOf, _cart2polar, _index_coords, originOf, z2x2]
    norm_num [Real.sqrt_one]
  have h10 : rOf z2x2 none 1 0 = 1 := by
    simp only [rOf, _cart2polar, _index_coords, originOf, z2x2]
    norm_num [Real.sqrt_one]
  have h11 : rOf z2x2 none 1 1 = 0 := by
    simp only [rOf, _cart2polar, _index_coords, originOf, z2x2]
    norm_num [Real.sqrt_zero]
  rw [h00, h01, h10, h11]

lemma nrOf_z2x2 : nrOf z2x2 none 1 = 2 := by
  have h1 := sqrt_two_bounds
  have hmax : rmaxOf z2x2 none = Real.sqrt 2 := by
    rw [rmaxOf, rOf_z2x2_vals, listMaxR]
    simp only [List.headD_cons, List.foldl_cons, List.foldl_nil]
    rw [max_self, max_eq_left (le_of_lt h1.1),
      max_eq_left (le_of_lt h1.1), max_eq_left (Real.sqrt_nonneg 2)]
  have hmin : rminOf z2x2 none = 0 := by
    rw [rminOf, rOf_z2x2_vals, listMinR]
    simp only [List.headD_cons, List.foldl_cons, List.foldl_nil]
    rw [min_self, min_eq_right (le_of_lt h1.1), min_self,
      min_eq_right zero_le_one]
  rw [nrOf, hmax, hmin, sub_zero, div_one]
  have hceil : Int.ceil (Real.sqrt 2) = 2 := by
    apply Int.ceil_eq_iff.mpr
    constructor
    · push_cast
      linarith [h1.1]
    · push_cast
      exact h1.2
  rw [hceil]
  rfl

lemma ntOf_z2x2 : ntOf z2x2 none none = 2 := rfl

lemma ziOf_z2x2 :
    ziOf z2x2 constInterp none 1 none = [1, 1, 1, 1] := by
  have hs : ∀ k t : ℕ, sampleOf z2x2 constInterp none 1 none k t = 1 :=
    fun k t => rfl
  rw [ziOf, nrOf_z2x2, ntOf_z2x2]
  simp [List.range_succ, hs]

lemma ziOf_flipud_z2x2 :
    ziOf (flipud z2x2) constInterp none 1 none = [3, 3, 3, 3] := by
  have hs : ∀ k t : ℕ,
      sampleOf (flipud z2x2) constInterp none 1 none k t = 3 :=
    fun k t => rfl
  rw [ziOf, nrOf_flipud, nrOf_z2x2, ntOf_flipud, ntOf_z2x2]
  simp [List.range_succ, hs]

/-- C1 concerns which array reproject_polar resamples.  Line 165 binds
data = np.flipud(z) and the adjacent comment says the flip is required, but
line 196 passes z itself, not data, to ndi.map_coordinates: the polar
output is interpolated from the unflipped image.  This theorem evaluates
the embedding at the failing input z2x2 (which is not flipud-invariant)
with a concrete interpolation provider: the output differs from the output
on the flipped image, so the values placed in the polar grid are sampled
from z and not from np.flipud(z) as the claim states. -/
theorem reproject_polar_samples_unflipped :
    reproject_polar z2x2 constInterp none false 1 none ≠
      reproject_polar (flipud z2x2) constInterp none false 1 none := by
  have hout : reproject_polar z2x2 constInterp none false 1 none =
      [[1, 1], [1, 1]] := by
    rw [reproject_polar_false_eq, nrOf_z2x2, ntOf_z2x2, ziOf_z2x2]
    simp [List.range_succ]
  have houtf : reproject_polar (flipud z2x2) constInterp none false 1 none =
      [[3, 3], [3, 3]] := by
    rw [reproject_polar_false_eq, nrOf_flipud, nrOf_z2x2, ntOf_flipud,
      ntOf_z2x2, ziOf_flipud_z2x2]
    simp [List.range_succ]
  rw [hout, houtf]
  intro h
  have h00 : (1 : ℝ) = 3 := by
    have := congrArg (fun l => (l.getD 0 []).getD 0 (0 : ℝ)) h
    simpa using this
  norm_num at h00

/-- Indices selected by the Python slice a : b (step 1) on an axis of
length n: a negative endpoint is first shifted by n, then both endpoints
are clamped to [0, n], and the selection is the remaining half-open
integer range.  A negative start therefore anchors the selection at the
opposite edge of the axis, or selects nothing. -/
def pySliceIdx (n : ℕ) (a b : ℤ) : List ℕ :=
  let norm : ℤ → ℤ := fun v => if v < 0 then v + (n : ℤ) else v
  let lo : ℕ := (max 0 (min (norm a) (n : ℤ))).toNat
  let hi : ℕ := (max 0 (min (norm b) (n : ℤ))).toNat
  List.range' lo (hi - lo)

/-- numpy mean of a raveled selection, with NaN modelled as none: the mean
of an empty selection is NaN, a NaN entry makes the mean NaN, and
otherwise the mean is the exact arithmetic mean. -/
def npMean (l : List (Option ℚ)) : Option ℚ :=
  if l.length = 0 then none
  else if l.any (fun v => v == none) then none
  else some ((l.map (fun v => v.getD 0)).sum / (l.length : ℚ))

/-- The raveled neighbourhood z[i-d : i+d+1, j-d : j+d+1] taken at line 241
of remove_dead, with Python slicing semantics on each axis. -/
def neighbours (z : Image (Option ℚ)) (d : ℕ) (i j : ℕ) :
    List (Option ℚ) :=
  (pySliceIdx z.ny ((i : ℤ) - (d : ℤ)) ((i : ℤ) + (d : ℤ) + 1)).flatMap
    (fun r => (pySliceIdx z.nx ((j : ℤ) - (d : ℤ))
      ((j : ℤ) + (d : ℤ) + 1)).map (fun c => z.val r c))

/-- In-place elementwise assignment z[i, j] = v. -/
def setPix (z : Image (Option ℚ)) (i j : ℕ) (v : Option ℚ) :
    Image (Option ℚ) :=
  ⟨z.ny, z.nx, fun a b => if a = i ∧ b = j then v else z.val a b⟩

/-- Source remove_dead (lines 221-252).  Pixel values are Option ℚ with
none modelling NaN.  The Python function mutates z in place and returns
the same array; the embedding passes the state explicitly and returns the
final state of z (which is also the returned array) together with the
raised error message, if any (none in the error slot is a normal return).
The else branch raises NotImplementedError before touching z. -/
def remove_dead (z : Image (Option ℚ)) (deadpixels : List (ℕ × ℕ))
    (deadvalue : String) (d : ℕ) : Image (Option ℚ) × Option String :=
  if deadvalue = "average" then
    (deadpixels.foldl (fun zz p =>
      setPix zz p.1 p.2 (npMean (neighbours zz d p.1 p.2))) z, none)
  else if deadvalue = "nan" then
    (deadpixels.foldl (fun zz p => setPix zz p.1 p.2 none) z, none)
  else
    (z, some ("The method specified is not implemented. " ++
      "See documentation for available implementations."))

/-- Source subtract_background_dog (lines 306-323): difference of two
Gaussian blurs, floored at zero.  ndi.gaussian_filter is an external
collaborator passed in as gaussian_filter (sigma, then the image). -/
noncomputable def subtract_background_dog (z : ℕ → ℕ → ℝ) (sigma_min sigma_max : ℝ)
    (gaussian_filter : ℝ → (ℕ → ℕ → ℝ) → ℕ → ℕ → ℝ) : ℕ → ℕ → ℝ :=
  let blur_max := gaussian_filter sigma_max z
  let blur_min := gaussian_filter sigma_min z
  fun i j =>
    max ((if blur_max i j < blur_min i j then z i j else 0) - blur_max i j) 0

/-- Source subtract_background_median (lines 325-352).  The two filtering
back-ends are external collaborators passed in as median_filter (the scipy
path) and median_skimage (the skimage path, folding in the uint16 round
trip of line 348); an unknown implementation name raises ValueError before
any computation, and otherwise the result is floored at zero at line 352. -/
noncomputable def subtract_background_median (z : ℕ → ℕ → ℝ) (footprint : ℕ)
    (implementation : String)
    (median_filter median_skimage : ℕ → (ℕ → ℕ → ℝ) → ℕ → ℕ → ℝ) :
    Except String (ℕ → ℕ → ℝ) :=
  let bg : Except String (ℕ → ℕ → ℝ) :=
    if implementation = "scipy" then
      Except.ok (fun i j => z i j - median_filter footprint z i j)
    else if implementation = "skimage" then
      Except.ok (fun i j => z i j - median_skimage footprint z i j)
    else Except.error ("Unknown implementation `" ++ implementation ++ "`")
  bg.map (fun b i j => max (b i j) 0)

/-- C7: subtract_background_dog, and subtract_background_median with a
valid implementation name, return arrays that are everywhere nonnegative,
whatever the input image and the behaviour of the external filters. -/
theorem background_subtraction_nonneg (z : ℕ → ℕ → ℝ)
    (sigma_min sigma_max : ℝ)
    (gaussian_filter : ℝ → (ℕ → ℕ → ℝ) → ℕ → ℕ → ℝ) (zm : ℕ → ℕ → ℝ)
    (footprint : ℕ) (implementation : String)
    (median_filter median_skimage : ℕ → (ℕ → ℕ → ℝ) → ℕ → ℕ → ℝ)
    (himpl : implementation = "scipy" ∨ implementation = "skimage") :
    (∀ i j, 0 ≤ subtract_background_dog z sigma_min sigma_max
      gaussian_filter i j) ∧
    ∃ w, subtract_background_median zm footprint implementation
        median_filter median_skimage = Except.ok w ∧ ∀ i j, 0 ≤ w i j := by
  constructor
  · intro i j
    exact le_max_right _ _
  · rcases himpl with h | h
    · subst h
      refine ⟨fun i j => max (zm i j - median_filter footprint zm i j) 0,
        ?_, fun i j => le_max_right _ _⟩
      simp [subtract_background_median, Except.map]
    · subst h
      refine ⟨fun i j => max (zm i j - median_skimage footprint zm i j) 0,
        ?_, fun i j => le_max_right _ _⟩
      simp [subtract_background_median, Except.map]

/-- Witness for C7 with the scipy back-end on a zero image and identity
filters. -/
theorem background_subtraction_nonneg_witness :
    ("scipy" = "scipy" ∨ "scipy" = "skimage") ∧
    ((∀ i j, 0 ≤ subtract_background_dog (fun _ _ => (0 : ℝ)) 1 2
      (fun _ f => f) i j) ∧
    ∃ w, subtract_background_median (fun _ _ => (0 : ℝ)) 19 "scipy"
        (fun _ f => f) (fun _ f => f) = Except.ok w ∧ ∀ i j, 0 ≤ w i j) :=
  ⟨Or.inl rfl,
    background_subtraction_nonneg (fun _ _ => (0 : ℝ)) 1 2 (fun _ f => f)
      (fun _ _ => (0 : ℝ)) 19 "scipy" (fun _ f => f) (fun _ f => f)
      (Or.inl rfl)⟩

/-- C8: remove_dead with an unsupported deadvalue string and
subtract_background_median with an unsupported implementation string each
fail immediately with their explicit unsupported-option error, and in the
failing case the input array state is returned untouched. -/
theorem invalid_option_errors (z : Image (Option ℚ))
    (deadpixels : List (ℕ × ℕ)) (deadvalue : String) (d : ℕ)
    (zm : ℕ → ℕ → ℝ) (footprint : ℕ) (implementation : String)
    (median_filter median_skimage : ℕ → (ℕ → ℕ → ℝ) → ℕ → ℕ → ℝ)
    (hdv : deadvalue ≠ "average" ∧ deadvalue ≠ "nan")
    (himpl : implementation ≠ "scipy" ∧ implementation ≠ "skimage") :
    remove_dead z deadpixels deadvalue d =
      (z, some ("The method specified is not implemented. " ++
        "See documentation for available implementations.")) ∧
    subtract_background_median zm footprint implementation
        median_filter median_skimage =
      Except.error ("Unknown implementation `" ++ implementation ++ "`") := by
  constructor
  · rw [remove_dead, if_neg hdv.1, if_neg hdv.2]
  · rw [subtract_background_median]
    simp only [if_neg himpl.1, if_neg himpl.2]
    rfl

/-- Witness for C8 with the unsupported option strings foo and bar on a
1 by 1 image. -/
theorem invalid_option_errors_witness :
    (("foo" : String) ≠ "average" ∧ ("foo" : String) ≠ "nan") ∧
    (("bar" : String) ≠ "scipy" ∧ ("bar" : String) ≠ "skimage") ∧
    (remove_dead (Image.mk 1 1 (fun _ _ => some 0)) [(0, 0)] "foo" 1 =
      (Image.mk 1 1 (fun _ _ => some 0),
        some ("The method specified is not implemented. " ++
          "See documentation for available implementations.")) ∧
    subtract_background_median (fun _ _ => (0 : ℝ)) 19 "bar"
        (fun _ f => f) (fun _ f => f) =
      Except.error ("Unknown implementation `" ++ "bar" ++ "`")) :=
  ⟨⟨by decide, by decide⟩, ⟨by decide, by decide⟩,
    invalid_option_errors (Image.mk 1 1 (fun _ _ => some 0)) [(0, 0)] "foo"
      1 (fun _ _ => (0 : ℝ)) 19 "bar" (fun _ f => f) (fun _ f => f)
      ⟨by decide, by decide⟩ ⟨by decide, by decide⟩⟩

lemma foldl_setPix_nan_not_mem (dps : List (ℕ × ℕ))
    (z : Image (Option ℚ)) (i j : ℕ) (h : (i, j) ∉ dps) :
    (dps.foldl (fun zz p => setPix zz p.1 p.2 none) z).val i j =
      z.val i j := by
  induction dps generalizing z with
  | nil => rfl
  | cons a t ih =>
    obtain ⟨a1, a2⟩ := a
    rw [List.foldl_cons,
      ih _ (fun ht => h (List.mem_cons.mpr (Or.inr ht)))]
    have hne : ¬(i = a1 ∧ j = a2) := by
      intro hc
      exact h (List.mem_cons.mpr (Or.inl (by simp [hc.1, hc.2])))
    simp [setPix, hne]

lemma foldl_setPix_nan_mem (dps : List (ℕ × ℕ)) (z : Image (Option ℚ))
    (p : ℕ × ℕ) (h : p ∈ dps) :
    (dps.foldl (fun zz q => setPix zz q.1 q.2 none) z).val p.1 p.2 =
      none := by
  induction dps generalizing z with
  | nil => cases h
  | cons a t ih =>
    rw [List.foldl_cons]
    by_cases ht : p ∈ t
    · exact ih _ ht
    · have hpa : p = a := by
        rcases List.mem_cons.mp h with hh | hh
        · exact hh
        · exact absurd hh ht
      subst hpa
      rw [foldl_setPix_nan_not_mem t _ p.1 p.2 (by simpa using ht)]
      simp [setPix]

/-- C9: remove_dead with deadvalue nan sets exactly the listed coordinates
of z to NaN (modelled as none), leaves every other pixel unchanged, raises
no error, and the returned array is the final state of the mutated input
array itself. -/
theorem remove_dead_nan_exact (z : Image (Option ℚ))
    (deadpixels : List (ℕ × ℕ)) (d : ℕ)
    (hb : ∀ p ∈ deadpixels, p.1 < z.ny ∧ p.2 < z.nx) :
    (remove_dead z deadpixels "nan" d).2 = none ∧
    (∀ p ∈ deadpixels,
      (remove_dead z deadpixels "nan" d).1.val p.1 p.2 = none) ∧
    (∀ i j : ℕ, (i, j) ∉ deadpixels →
      (remove_dead z deadpixels "nan" d).1.val i j = z.val i j) := by
  have hred : remove_dead z deadpixels "nan" d =
      (deadpixels.foldl (fun zz p => setPix zz p.1 p.2 none) z, none) := by
    rw [remove_dead, if_neg (by decide), if_pos rfl]
  rw [hred]
  refine ⟨rfl, ?_, ?_⟩
  · intro p hp
    exact foldl_setPix_nan_mem deadpixels z p hp
  · intro i j hij
    exact foldl_setPix_nan_not_mem deadpixels z i j hij

/-- Witness for C9: a 2 by 2 image with dead pixel list [(0, 1)]. -/
theorem remove_dead_nan_exact_witness :
    (∀ p ∈ [((0 : ℕ), (1 : ℕ))], p.1 < 2 ∧ p.2 < 2) ∧
    ((remove_dead (Image.mk 2 2 (fun _ _ => some 5)) [(0, 1)] "nan" 1).2 =
      none ∧
    (∀ p ∈ [((0 : ℕ), (1 : ℕ))],
      (remove_dead (Image.mk 2 2 (fun _ _ => some 5)) [(0, 1)]
        "nan" 1).1.val p.1 p.2 = none) ∧
    (∀ i j : ℕ, (i, j) ∉ [((0 : ℕ), (1 : ℕ))] →
      (remove_dead (Image.mk 2 2 (fun _ _ => some 5)) [(0, 1)]
        "nan" 1).1.val i j = (Image.mk 2 2
          (fun _ _ => some (5 : ℚ))).val i j)) :=
  ⟨by decide,
    remove_dead_nan_exact (Image.mk 2 2 (fun _ _ => some 5)) [(0, 1)] 1
      (by decide)⟩

/-- C10: in remove_dead with deadvalue average and neighbourhood half-width
d at least 1, a dead pixel within d of the top edge (i < d) gives the row
slice i-d : i+d+1 a negative start.  Under Python slicing the selection is
then anchored at the bottom edge or empty: it is never the centred
(2d+1)-row window (its row count stays below 2d+1), every selected row
index is at least ny + i - d (the opposite-edge region) whenever d ≤ ny,
and when ny ≥ 2d+1 the selection is empty, so the replacement value
written into the dead pixel is NaN (the mean of an empty selection,
modelled as none).  By the row/column symmetry of line 241 the same holds
for j < d on the column axis. -/
theorem remove_dead_average_edge_window (ny d i : ℕ) (hd : 1 ≤ d)
    (hi : i < d) :
    ((i : ℤ) - (d : ℤ) < 0) ∧
    (pySliceIdx ny ((i : ℤ) - (d : ℤ)) ((i : ℤ) + (d : ℤ) + 1)).length <
      2 * d + 1 ∧
    (2 * d + 1 ≤ ny →
      pySliceIdx ny ((i : ℤ) - (d : ℤ)) ((i : ℤ) + (d : ℤ) + 1) = []) ∧
    (d ≤ ny → ∀ k ∈ pySliceIdx ny ((i : ℤ) - (d : ℤ))
      ((i : ℤ) + (d : ℤ) + 1), ny + i - d ≤ k) ∧
    (∀ (z : Image (Option ℚ)) (j : ℕ), z.ny = ny → 2 * d + 1 ≤ ny →
      (remove_dead z [(i, j)] "average" d).1.val i j = none) := by
  have hempty : ∀ m : ℕ, 2 * d + 1 ≤ m →
      pySliceIdx m ((i : ℤ) - (d : ℤ)) ((i : ℤ) + (d : ℤ) + 1) = [] := by
    intro m hm
    apply List.length_eq_zero.mp
    simp only [pySliceIdx, List.length_range', min_def, max_def]
    split_ifs <;> omega
  refine ⟨by omega, ?_, fun hm => hempty ny hm, ?_, ?_⟩
  · simp only [pySliceIdx, List.length_range', min_def, max_def]
    split_ifs <;> omega
  · intro hdn k hk
    simp only [pySliceIdx] at hk
    rw [List.mem_range'_1] at hk
    obtain ⟨hlo, _⟩ := hk
    simp only [min_def, max_def] at hlo
    split_ifs at hlo <;> omega
  · intro z j hzny hm
    have hnil : pySliceIdx z.ny ((i : ℤ) - (d : ℤ))
        ((i : ℤ) + (d : ℤ) + 1) = [] := by
      rw [hzny]
      exact hempty ny hm
    have hnb : neighbours z d i j = [] := by
      rw [neighbours, hnil]
      rfl
    rw [remove_dead, if_pos rfl]
    simp only [List.foldl_cons, List.foldl_nil]
    simp [setPix, hnb, npMean]

/-- Witness for C10 at ny = 3, d = 1, i = 0: the slice -1 : 2 on a 3-row
axis is empty and the dead pixel is replaced by NaN. -/
theorem remove_dead_average_edge_window_witness :
    (1 : ℕ) ≤ 1 ∧ (0 : ℕ) < 1 ∧
    (((0 : ℤ) - (1 : ℤ) < 0) ∧
    (pySliceIdx 3 ((0 : ℤ) - (1 : ℤ)) ((0 : ℤ) + (1 : ℤ) + 1)).length <
      2 * 1 + 1 ∧
    (2 * 1 + 1 ≤ 3 →
      pySliceIdx 3 ((0 : ℤ) - (1 : ℤ)) ((0 : ℤ) + (1 : ℤ) + 1) = []) ∧
    (1 ≤ 3 → ∀ k ∈ pySliceIdx 3 ((0 : ℤ) - (1 : ℤ))
      ((0 : ℤ) + (1 : ℤ) + 1), 3 + 0 - 1 ≤ k) ∧
    (∀ (z : Image (Option ℚ)) (j : ℕ), z.ny = 3 → 2 * 1 + 1 ≤ 3 →
      (remove_dead z [(0, j)] "average" 1).1.val 0 j = none)) :=
  ⟨le_refl 1, Nat.one_pos, by
    have h := remove_dead_average_edge_window 3 1 0 (le_refl 1) Nat.one_pos
    exact h⟩

/-- Modelled from the spec: the circular mask provider of section 6 of the
specification, an external collaborator of refine_beam_position (the
function circular_mask is not defined in this module).  It returns a
boolean image that is true inside a disk of the given radius centered at
the given coordinate. -/
def circular_mask (ny nx : ℕ) (radius : ℕ) (c : ℤ × ℤ) : ℕ → ℕ → Bool :=
  fun i j =>
    decide (((i : ℤ) - c.1) ^ 2 + ((j : ℤ) - c.2) ^ 2 ≤ (radius : ℤ) ^ 2)

/-- z * mask (lines 399, 407, 415): pixels outside the mask are zeroed. -/
def maskMul (z : Image ℚ) (mask : ℕ → ℕ → Bool) : Image ℚ :=
  ⟨z.ny, z.nx, fun i j => if mask i j then z.val i j else 0⟩

/-- Binary maximum on the rationals, written out so that it evaluates by
kernel reduction; it agrees with the lattice max of a linear order. -/
def qmax (a b : ℚ) : ℚ := if a ≤ b then b else a

/-- np.max of a rational image over its raveled entries (np.max raises on
an empty array, for which the model returns the default 0). -/
def maxOfQ (z : Image ℚ) : ℚ :=
  ((pixelList z.ny z.nx).map (fun p => z.val p.1 p.2)).foldl qmax
    (((pixelList z.ny z.nx).map (fun p => z.val p.1 p.2)).headD 0)

/-- np.where(zt == zt.max()) as the row-major list of attaining pixels
(lines 402 and 409). -/
def argmaxList (zt : Image ℚ) : List (ℕ × ℕ) :=
  (pixelList zt.ny zt.nx).filter (fun p => zt.val p.1 p.2 == maxOfQ zt)

/-- np.average of a list of rationals. -/
def npAverage (l : List ℚ) : ℚ := l.sum / (l.length : ℚ)

/-- np.rint: round to nearest integer, halves to even. -/
def rint (q : ℚ) : ℤ :=
  if q - (q.floor : ℚ) < 1 / 2 then q.floor
  else if (1 : ℚ) / 2 < q - (q.floor : ℚ) then q.floor + 1
  else if q.floor % 2 = 0 then q.floor
  else q.floor + 1

/-- Lines 402-404 and 409-412: the rounded per-axis centroid of the pixels
attaining the maximum of the masked image zt. -/
def centroidStep (zt : Image ℚ) : ℤ × ℤ :=
  (rint (npAverage ((argmaxList zt).map (fun p => (p.1 : ℚ)))),
   rint (npAverage ((argmaxList zt).map (fun p => (p.2 : ℚ)))))

/-- ndi.measurements.center_of_mass of an image (line 419). -/
def center_of_mass (z : Image ℚ) : ℚ × ℚ :=
  (((pixelList z.ny z.nx).map (fun p => z.val p.1 p.2 * (p.1 : ℚ))).sum /
    ((pixelList z.ny z.nx).map (fun p => z.val p.1 p.2)).sum,
   ((pixelList z.ny z.nx).map (fun p => z.val p.1 p.2 * (p.2 : ℚ))).sum /
    ((pixelList z.ny z.nx).map (fun p => z.val p.1 p.2)).sum)

/-- The while loop of lines 408-415 as the source wrote it: the loop
condition and the argmax search both read z_tmp, the masked image built at
the initial center (line 399), which no iteration reassigns — the loop
body stores the rebuilt masked image in the distinct variable ztmp
(line 415).  The state carried across iterations is c_int and the center
at which the latest ztmp was built (none while ztmp is still unbound);
fuel bounds the iterations, with none returned when it runs out. -/
def refineCodeLoop (z : Image ℚ) (ztmp0 : Image ℚ) :
    ℕ → ℚ → Option (ℤ × ℤ) → Option (Option (ℤ × ℤ))
  | 0, _, _ => none
  | fuel + 1, cint, ztC =>
    if cint < maxOfQ ztmp0 then
      refineCodeLoop z ztmp0 fuel
        (z.val (centroidStep ztmp0).1.toNat (centroidStep ztmp0).2.toNat)
        (some (centroidStep ztmp0))
    else some ztC

/-- Source refine_beam_position (lines 373-421).  Line 397 reads the
intensity at start, line 399 builds z_tmp there; the if of line 401 runs
one centroid step when that intensity already equals the masked maximum;
the while loop is refineCodeLoop; the return value (line 419) is the
center of mass of ztmp, the full-shape masked image built at the last
computed center (ztmp being unbound there is a Python NameError, modelled
as none). -/
def refine_beam_position (z : Image ℚ) (start : ℕ × ℕ) (radius : ℕ)
    (fuel : ℕ) : Option (ℚ × ℚ) :=
  let cint0 := z.val start.1 start.2
  let ztmp0 := maskMul z
    (circular_mask z.ny z.nx radius ((start.1 : ℤ), (start.2 : ℤ)))
  let st :=
    if cint0 = maxOfQ ztmp0 then
      ((z.val (centroidStep ztmp0).1.toNat (centroidStep ztmp0).2.toNat),
        some (centroidStep ztmp0))
    else (cint0, (none : Option (ℤ × ℤ)))
  match refineCodeLoop z ztmp0 fuel st.1 st.2 with
  | none => none
  | some none => none
  | some (some c) =>
      some (center_of_mass (maskMul z (circular_mask z.ny z.nx radius c)))

/-- Modelled from the spec (section 4.6 step 2): the loop as specified,
rebuilding the circular mask at each new center and comparing the
intensity at the current center against the maximum of the CURRENT masked
region. -/
def refineSpecLoop (z : Image ℚ) (radius : ℕ) :
    ℕ → ℚ → Image ℚ → (ℤ × ℤ) → Option (ℤ × ℤ)
  | 0, _, _, _ => none
  | fuel + 1, cint, region, c =>
    if cint < maxOfQ region then
      refineSpecLoop z radius fuel
        (z.val (centroidStep region).1.toNat (centroidStep region).2.toNat)
        (maskMul z (circular_mask z.ny z.nx radius (centroidStep region)))
        (centroidStep region)
    else some c

/-- Modelled from the spec (section 4.6): refinement as specified — loop
from the start state with a recentered region, then the center of mass of
the final masked region. -/
def refineSpec (z : Image ℚ) (start : ℕ × ℕ) (radius : ℕ) (fuel : ℕ) :
    Option (ℚ × ℚ) :=
  match refineSpecLoop z radius fuel (z.val start.1 start.2)
      (maskMul z
        (circular_mask z.ny z.nx radius ((start.1 : ℤ), (start.2 : ℤ))))
      ((start.1 : ℤ), (start.2 : ℤ)) with
  | none => none
  | some c =>
      some (center_of_mass (maskMul z (circular_mask z.ny z.nx radius c)))

/-- A concrete 1 by 7 image, values [1, 0, 3, 0, 9, 0, 0]. -/
def z1x7 : Image ℚ :=
  ⟨1, 7, fun _ j => ([1, 0, 3, 0, 9, 0, 0] : List ℚ).getD j 0⟩

/-- C2 concerns whether each iteration of the refinement loop recenters
the masked region used by the loop condition.  It does not: the loop reads
z_tmp, built once at the start center, while the recentered mask is stored
in the distinct variable ztmp.  On z1x7 with start (0, 0) and radius 2 the
code therefore stops at center (0, 2) (the argmax of the stale region) and
returns its center of mass (0, 42/13), whereas the loop described by the
claim continues to (0, 4), where the recentered region attains its
maximum, and returns (0, 7/2). -/
theorem refine_beam_position_stale_region :
    refine_beam_position z1x7 (0, 0) 2 10 = some (0, 42 / 13) ∧
    refineSpec z1x7 (0, 0) 2 10 = some (0, 7 / 2) ∧
    ((42 : ℚ) / 13) ≠ 7 / 2 := by
  refine ⟨by with_unfolding_all decide, by with_unfolding_all decide,
    by norm_num⟩
